import Mathlib

/-!
Verification of the Varsha-AI repository's document-processing and
chat-orchestration code against its specification.

Python text values are modelled as `List Char` (Python `str` is a sequence
of Unicode code points; Lean `Char` is a Unicode scalar value) and Python
`bytes` values as `List Nat` whose members are below 256.  The functions
below are direct shallow embeddings of the source:

* `clean_text`          — `DocumentProcessor._clean_text`
* `process_file`        — `DocumentProcessor.process_file` (with the effects
                          it performs recorded as an event list)
* `process_pdf`         — `DocumentProcessor._process_pdf`
* `process_docx`        — `DocumentProcessor._process_docx`
* `process_pptx`        — `DocumentProcessor._process_pptx`
* `process_txt`         — `DocumentProcessor._process_txt`
* `generate`            — `GeminiChat.generate`
* `create_document_prompt`, `summarize_document_prompt`,
  `extract_key_information_prompt`, `answer_question_prompt`
                        — the prompt construction in the corresponding
                          `GeminiChat` methods
* `analyze_sentiment`   — the response post-processing of
                          `GeminiChat.analyze_sentiment`
-/

namespace Varsha

/-- Python whitespace: the characters for which `str.isspace()` is true,
which is also the set matched by `\s` in a `re` pattern over `str` and the
set stripped by `str.strip()` with no argument. -/
def pyIsSpace (c : Char) : Bool :=
  c == ' ' || c == '\t' || c == '\n' || c == '\x0b' || c == '\x0c' || c == '\r' ||
  (decide (0x1c ≤ c.toNat) && decide (c.toNat ≤ 0x1f)) ||
  c.toNat == 0x85 || c.toNat == 0xa0 || c.toNat == 0x1680 ||
  (decide (0x2000 ≤ c.toNat) && decide (c.toNat ≤ 0x200a)) ||
  c.toNat == 0x2028 || c.toNat == 0x2029 || c.toNat == 0x202f ||
  c.toNat == 0x205f || c.toNat == 0x3000

/-- The control characters removed by `_clean_text`'s third substitution,
`re.sub(r'[\x00-\x08\x0B\x0C\x0E-\x1F\x7F]', '', text)`. -/
def isRemovedCtrl (c : Char) : Bool :=
  decide (c.toNat ≤ 0x08) || c == '\x0b' || c == '\x0c' ||
  (decide (0x0e ≤ c.toNat) && decide (c.toNat ≤ 0x1f)) || c == '\x7f'

/-- Number of newline characters in a list. -/
def countNl (l : List Char) : Nat := l.count '\n'

/-- The suffix of `p` that follows the last `'\n'` of `p` (all of `p` when
`p` has no newline). -/
def afterLastNl (p : List Char) : List Char :=
  (p.reverse.takeWhile (fun c => !(c == '\n'))).reverse

/-- `re.sub(r'\n\s*\n\s*\n', '\n\n', text)`.  The regex scanner looks for a
match from each position, left to right.  A match can only start at a
`'\n'`; with `\s*` greedy and backtracking, a match starting at a `'\n'`
exists exactly when the whitespace run following it contains at least two
more newlines, and the (greedy) match then extends through the last newline
of that whitespace run.  The replacement `"\n\n"` is emitted and scanning
resumes after the match, i.e. on the rest of the whitespace run (which has
no newline left) followed by the remaining text. -/
def collapseNl : List Char → List Char
  | [] => []
  | c :: rest =>
    if c = '\n' then
      if 2 ≤ countNl (rest.takeWhile pyIsSpace) then
        '\n' :: '\n' ::
          collapseNl (afterLastNl (rest.takeWhile pyIsSpace) ++ rest.dropWhile pyIsSpace)
      else c :: collapseNl rest
    else c :: collapseNl rest
termination_by l => l.length
decreasing_by
  · simp only [List.length_cons]
    have h1 : (afterLastNl (rest.takeWhile pyIsSpace)).length ≤
        (rest.takeWhile pyIsSpace).length := by
      have := (List.takeWhile_sublist (l := (rest.takeWhile pyIsSpace).reverse)
        (fun c => !(c == '\n'))).length_le
      simpa [afterLastNl] using this
    have h2 : (rest.takeWhile pyIsSpace).length + (rest.dropWhile pyIsSpace).length
        = rest.length := by
      rw [← List.length_append, List.takeWhile_append_dropWhile]
    simp only [List.length_append]
    omega
  · simp only [List.length_cons]; omega
  · simp only [List.length_cons]; omega

/-- `re.sub(r' {2,}', ' ', text)`: a match is a greedy run of two or more
spaces, replaced by a single space; scanning resumes after the run. -/
def collapseSp : List Char → List Char
  | [] => []
  | [c] => [c]
  | c1 :: c2 :: rest =>
    if c1 = ' ' ∧ c2 = ' ' then
      ' ' :: collapseSp (rest.dropWhile (fun c => c == ' '))
    else c1 :: collapseSp (c2 :: rest)
termination_by l => l.length
decreasing_by
  · simp only [List.length_cons]
    have := (List.dropWhile_sublist (l := rest) (fun c => c == ' ')).length_le
    omega
  · simp only [List.length_cons]; omega

/-- The third substitution of `_clean_text`: remove the control characters. -/
def removeCtrl (l : List Char) : List Char := l.filter (fun c => !(isRemovedCtrl c))

/-- Python `str.strip()`: drop leading and trailing whitespace. -/
def pyStrip (l : List Char) : List Char :=
  ((l.dropWhile pyIsSpace).reverse.dropWhile pyIsSpace).reverse

/-- `DocumentProcessor._clean_text`: empty text is returned as is; otherwise
the two whitespace substitutions, the control-character removal and the
final `strip` are applied in the order of the source. -/
def clean_text (l : List Char) : List Char :=
  if l = [] then []
  else pyStrip (removeCtrl (collapseSp (collapseNl l)))

/-- No position of `l` starts a match of the first substitution's pattern
`\n\s*\n\s*\n`: after every `'\n'` of `l`, the whitespace run that follows
holds at most one more newline. -/
def noTriNl : List Char → Bool
  | [] => true
  | c :: rest =>
    (!(c == '\n' && decide (2 ≤ countNl (rest.takeWhile pyIsSpace)))) && noTriNl rest

/-- No position of `l` starts a match of the second substitution's pattern
` {2,}`: no two adjacent spaces anywhere in `l`. -/
def noDblSp : List Char → Bool
  | [] => true
  | [_] => true
  | c1 :: c2 :: rest => (!(c1 == ' ' && c2 == ' ')) && noDblSp (c2 :: rest)

/-- `l` is empty or starts with a character on which `q` is false. -/
def headFails (q : Char → Bool) : List Char → Prop
  | [] => True
  | c :: _ => q c = false

/-! ## The dispatcher (`DocumentProcessor.process_file`) -/

/-- An uploaded file as the dispatcher sees it: a declared MIME type and the
raw byte content (a Python `bytes` value: each member is below 256). -/
structure UploadedFile where
  type : String
  content : List Nat

/-- The keys of `DocumentProcessor.supported_formats`, in source order. -/
def supportedMimes : List String :=
  ["application/pdf",
   "application/vnd.openxmlformats-officedocument.wordprocessingml.document",
   "application/vnd.openxmlformats-officedocument.presentationml.presentation",
   "text/plain"]

/-- The effects `process_file` performs on its way to a result, in order:
reading the file's bytes, resetting the read position, and invoking the
extractor selected for a MIME type. -/
inductive FileEvent where
  | readBytes : FileEvent
  | seekZero : FileEvent
  | runExtractor : String → FileEvent
deriving DecidableEq

/-- `DocumentProcessor.process_file`.  The four format extractors walk
external library objects, so the dispatcher is modelled over an arbitrary
extractor table `extract` (one result per MIME type and byte content; an
`Except.error` is a raised extractor exception, which `process_file` does
not catch).  The returned event list records what the dispatcher did: an
unsupported type raises `ValueError("Unsupported file type: ...")` before
the file is read, so its event list is empty. -/
def process_file (extract : String → List Nat → Except (List Char) (List Char))
    (f : UploadedFile) : Except (List Char) (List Char) × List FileEvent :=
  if f.type ∉ supportedMimes then
    (Except.error ("Unsupported file type: ".toList ++ f.type.toList), [])
  else
    match extract f.type f.content with
    | Except.ok t =>
        (Except.ok (clean_text t),
         [FileEvent.readBytes, FileEvent.seekZero, FileEvent.runExtractor f.type])
    | Except.error e =>
        (Except.error e,
         [FileEvent.readBytes, FileEvent.seekZero, FileEvent.runExtractor f.type])

/-! ## The PDF extractor (`DocumentProcessor._process_pdf`) -/

/-- The `--- Page {n} ---` header line (with its trailing newline) that
`_process_pdf` puts in front of a kept page. -/
def pageHeader (n : Nat) : List Char :=
  "--- Page ".toList ++ (Nat.repr n).toList ++ " ---\n".toList

/-- A blank-line separator: `"\n\n".join(...)`. -/
def nlnl : List Char := ['\n', '\n']

/-- The page blocks `_process_pdf` collects in `text_content`: for each page
in order (`page_num` 0-based), the page's text prefixed by the 1-based page
header, kept only when the page's stripped text is non-empty.  The pages'
texts stand for `page.get_text()` of the external PDF object model. -/
def pdfKept (pages : List (List Char)) : List (Nat × List Char) :=
  pages.enum.filterMap fun p =>
    if pyStrip p.2 ≠ [] then some (p.1 + 1, p.2) else none

/-- `DocumentProcessor._process_pdf`: the kept page blocks joined by a blank
line. -/
def process_pdf (pages : List (List Char)) : List Char :=
  List.intercalate nlnl ((pdfKept pages).map fun p => pageHeader p.1 ++ p.2)

/-! ## The DOCX extractor (`DocumentProcessor._process_docx`) -/

/-- One table of the external DOCX object model: rows of cell texts. -/
def DocxTable := List (List (List Char))

/-- The `--- Table ---` header (with its trailing newline). -/
def tableHeader : List Char := "--- Table ---\n".toList

/-- The rows `_process_docx` keeps for one table: for each row, the stripped
non-empty cell texts joined by `" | "`; rows with no such cell are
skipped. -/
def docxTableRows (table : DocxTable) : List (List Char) :=
  table.filterMap fun row =>
    let row_text := row.filterMap fun cell =>
      if pyStrip cell ≠ [] then some (pyStrip cell) else none
    if row_text ≠ [] then some (List.intercalate " | ".toList row_text) else none

/-- The table blocks `_process_docx` appends after the paragraphs: each
non-empty table becomes its header plus its kept rows joined by newlines. -/
def docxTableBlocks (tables : List DocxTable) : List (List Char) :=
  tables.filterMap fun table =>
    if docxTableRows table ≠ [] then
      some (tableHeader ++ List.intercalate ['\n'] (docxTableRows table))
    else none

/-- `DocumentProcessor._process_docx`: first all paragraphs whose stripped
text is non-empty (each kept verbatim), then all table blocks, the whole
joined by blank lines.  `paragraphs` and `tables` stand for the external
document object's `doc.paragraphs` and `doc.tables` sequences. -/
def process_docx (paragraphs : List (List Char)) (tables : List DocxTable) :
    List Char :=
  List.intercalate nlnl
    (paragraphs.filter (fun p => pyStrip p ≠ []) ++ docxTableBlocks tables)

/-! ## The PPTX extractor (`DocumentProcessor._process_pptx`) -/

/-- One slide of the external PPTX object model: for each shape in order,
`some text` when the shape has a `text` attribute (`none` when not), and the
text of the notes frame when `slide.notes_slide` and its
`notes_text_frame` exist. -/
structure Slide where
  shapes : List (Option (List Char))
  notes : Option (List Char)

/-- The `--- Slide {n} ---` header line (no trailing newline: the lines of a
slide block are joined with `"\n"`). -/
def slideHeader (n : Nat) : List Char :=
  "--- Slide ".toList ++ (Nat.repr n).toList ++ " ---".toList

/-- The lines of one slide's block after the header: the stripped non-empty
shape texts, then a `Notes: ...` line when the stripped notes text is
non-empty. -/
def slideLines (s : Slide) : List (List Char) :=
  (s.shapes.filterMap fun sh =>
    match sh with
    | some t => if pyStrip t ≠ [] then some (pyStrip t) else none
    | none => none) ++
  (match s.notes with
   | some nt => if pyStrip nt ≠ [] then ["Notes: ".toList ++ pyStrip nt] else []
   | none => [])

/-- The block `_process_pptx` emits for the slide numbered `n` (1-based):
the header line and the slide's lines joined by newlines, or nothing when
only the header would remain. -/
def pptxBlock (n : Nat) (s : Slide) : Option (List Char) :=
  let slide_text := slideHeader n :: slideLines s
  if slide_text.length > 1 then some (List.intercalate ['\n'] slide_text) else none

/-- `DocumentProcessor._process_pptx`: the slide blocks in presentation
order (slides numbered from 1), joined by blank lines. -/
def process_pptx (slides : List Slide) : List Char :=
  List.intercalate nlnl
    (slides.enum.filterMap fun p => pptxBlock (p.1 + 1) p.2)

/-! ## The plain-text extractor (`DocumentProcessor._process_txt`) -/

/-- A UTF-8 continuation byte, `0x80..0xBF`. -/
def isCont (b : Nat) : Bool := decide (0x80 ≤ b) && decide (b ≤ 0xbf)

/-- The allowed range of the first continuation byte of a three-byte
sequence, which depends on the lead byte (shorter forms and the surrogate
range `U+D800..U+DFFF` are rejected, as Python's strict UTF-8 codec
does). -/
def cont3Ok (lead b : Nat) : Bool :=
  if lead = 0xe0 then decide (0xa0 ≤ b) && decide (b ≤ 0xbf)
  else if lead = 0xed then decide (0x80 ≤ b) && decide (b ≤ 0x9f)
  else isCont b

/-- The allowed range of the first continuation byte of a four-byte
sequence (shorter forms and code points above `U+10FFFF` are rejected). -/
def cont4Ok (lead b : Nat) : Bool :=
  if lead = 0xf0 then decide (0x90 ≤ b) && decide (b ≤ 0xbf)
  else if lead = 0xf4 then decide (0x80 ≤ b) && decide (b ≤ 0x8f)
  else isCont b

/-- Python's `bytes.decode('utf-8')` (strict): `some` the decoded text, or
`none` when a `UnicodeDecodeError` is raised.  A lead byte announcing `k`
continuation bytes requires `k` more bytes of the right ranges (`rest.getD
i 0` is the `i`-th following byte; the length condition guards it), and the
code point is reassembled from the payload bits. -/
def utf8Decode : List Nat → Option (List Char)
  | [] => some []
  | b :: rest =>
    if b < 0x80 then (utf8Decode rest).map (Char.ofNat b :: ·)
    else if 0xc2 ≤ b ∧ b ≤ 0xdf then
      if 1 ≤ rest.length ∧ isCont (rest.getD 0 0) then
        (utf8Decode (rest.drop 1)).map
          (Char.ofNat ((b - 0xc0) * 64 + (rest.getD 0 0 - 0x80)) :: ·)
      else none
    else if 0xe0 ≤ b ∧ b ≤ 0xef then
      if 2 ≤ rest.length ∧ cont3Ok b (rest.getD 0 0) ∧ isCont (rest.getD 1 0) then
        (utf8Decode (rest.drop 2)).map
          (Char.ofNat ((b - 0xe0) * 4096 + (rest.getD 0 0 - 0x80) * 64 +
            (rest.getD 1 0 - 0x80)) :: ·)
      else none
    else if 0xf0 ≤ b ∧ b ≤ 0xf4 then
      if 3 ≤ rest.length ∧ cont4Ok b (rest.getD 0 0) ∧ isCont (rest.getD 1 0) ∧
          isCont (rest.getD 2 0) then
        (utf8Decode (rest.drop 3)).map
          (Char.ofNat ((b - 0xf0) * 262144 + (rest.getD 0 0 - 0x80) * 4096 +
            (rest.getD 1 0 - 0x80) * 64 + (rest.getD 2 0 - 0x80)) :: ·)
      else none
    else none
termination_by l => l.length
decreasing_by
  all_goals simp only [List.length_cons, List.length_drop]
  all_goals omega

/-- Python's `bytes.decode('latin-1')`: every byte value 0..255 is a defined
Latin-1 code point, mapped to the Unicode character of the same number, so
on a `bytes` value this decode always succeeds.  The `Option` mirrors the
`try`/`except` around it in `_process_txt`; `none` could only arise for a
member that is no byte at all. -/
def latin1Decode (bytes : List Nat) : Option (List Char) :=
  if bytes.all (· < 256) then some (bytes.map Char.ofNat) else none

/-- `DocumentProcessor._process_txt`: decode as UTF-8; on a
`UnicodeDecodeError` fall back to Latin-1; were that also to fail, raise
`Exception("Error decoding text file: ...")`. -/
def process_txt (content : List Nat) : Except (List Char) (List Char) :=
  match utf8Decode content with
  | some t => Except.ok t
  | none =>
    match latin1Decode content with
    | some t => Except.ok t
    | none => Except.error "Error decoding text file: ".toList

/-- The UTF-8 encoding of one character (the usual 1-4 byte forms; every
Lean `Char` is a Unicode scalar value, exactly the code points a Python
`str` element can be). -/
def utf8EncodeChar (c : Char) : List Nat :=
  let n := c.toNat
  if n < 0x80 then [n]
  else if n < 0x800 then [0xc0 + n / 64, 0x80 + n % 64]
  else if n < 0x10000 then
    [0xe0 + n / 4096, 0x80 + n / 64 % 64, 0x80 + n % 64]
  else
    [0xf0 + n / 262144, 0x80 + n / 4096 % 64, 0x80 + n / 64 % 64, 0x80 + n % 64]

/-- The UTF-8 encoding of a text, byte by byte. -/
def utf8Encode (s : List Char) : List Nat := (s.map utf8EncodeChar).flatten

/-! ## The generation wrapper (`GeminiChat.generate`) -/

/-- What `GeminiChat` receives back from the model API: an object carrying
the generated text in its `text` attribute. -/
structure GenResponse where
  text : List Char
deriving DecidableEq

/-- `GeminiChat.generate`: the external endpoint
(`self.model.generate_content`) either returns a response or raises, which
the wrapper models as an `Except`.  On an exception `e` the wrapper returns
a `FakeResponse` whose `text` is `"❌ Varsha Error: " ++ str(e)` instead of
propagating the exception. -/
def generate (endpoint : List Char → Except (List Char) GenResponse)
    (prompt : List Char) : GenResponse :=
  match endpoint prompt with
  | Except.ok r => r
  | Except.error e => ⟨"❌ Varsha Error: ".toList ++ e⟩

/-! ## Document-scoped prompt building (`GeminiChat`) -/

/-- The truncation marker `_create_document_prompt` appends when the
document content exceeds its budget. -/
def contentTruncatedMarker : List Char := "\n\n[Content truncated...]".toList

/-- The text of `_create_document_prompt`'s template before the document
content. -/
def docPromptPre : List Char :=
  ("\nYou are Varsha, an AI document assistant. You have been provided with document content and need to answer user queries based on this content.\n\nDOCUMENT CONTENT:\n").toList

/-- The text of `_create_document_prompt`'s template after the document
content (the user query is interpolated into it). -/
def docPromptPost (user_query : List Char) : List Char :=
  "\n\nUSER QUERY: ".toList ++ user_query ++
  ("\n\nInstructions:\n1. Answer the user's question based primarily on the provided document content\n2. If the answer isn't in the documents, clearly state that\n3. Provide specific quotes or references when possible\n4. Be conversational and helpful\n5. If asked for analysis (sentiment, summary, etc.), provide detailed insights\n\nPlease provide a comprehensive and helpful response:\n").toList

/-- `GeminiChat._create_document_prompt`: content longer than
`max_content_length = 15000` characters is cut to 15000 and the truncation
marker appended, then the template is filled in. -/
def create_document_prompt (user_query document_content : List Char) :
    List Char :=
  let dc := if document_content.length > 15000 then
      document_content.take 15000 ++ contentTruncatedMarker
    else document_content
  docPromptPre ++ dc ++ docPromptPost user_query

/-- `summary_prompts.get(summary_type, summary_prompts["general"])` in
`summarize_document`. -/
def summaryPrompt (summary_type : String) : List Char :=
  (if summary_type = "general" then
    "Provide a comprehensive summary of this document, highlighting the key points, main themes, and important information."
   else if summary_type = "executive" then
    "Create an executive summary focusing on key findings, recommendations, and business-critical information."
   else if summary_type = "bullet" then
    "Summarize this document in bullet points, organizing information by main topics or sections."
   else if summary_type = "abstract" then
    "Create an academic-style abstract summarizing the purpose, methodology, findings, and conclusions."
   else
    "Provide a comprehensive summary of this document, highlighting the key points, main themes, and important information.").toList

/-- The prompt `GeminiChat.summarize_document` sends: the selected summary
instruction, then `document_content[:12000]` (a bare slice: no truncation
marker), then the closing line. -/
def summarize_document_prompt (document_content : List Char)
    (summary_type : String) : List Char :=
  ['\n'] ++ summaryPrompt summary_type ++ "\n\nDOCUMENT CONTENT:\n".toList ++
  document_content.take 12000 ++
  "\n\nPlease provide a clear and well-structured summary:\n".toList

/-- `extraction_prompts.get(info_type, extraction_prompts["keywords"])` in
`extract_key_information`. -/
def extractionPrompt (info_type : String) : List Char :=
  (if info_type = "entities" then
    "Extract and list all important entities (people, organizations, locations, dates, etc.) mentioned in this document."
   else if info_type = "keywords" then
    "Identify and list the most important keywords and key phrases from this document."
   else if info_type = "topics" then
    "Identify the main topics and themes discussed in this document."
   else if info_type = "facts" then
    "Extract the key facts, statistics, and specific information from this document."
   else if info_type = "conclusions" then
    "Identify the main conclusions, findings, or outcomes presented in this document."
   else
    "Identify and list the most important keywords and key phrases from this document.").toList

/-- The prompt `GeminiChat.extract_key_information` sends: again a bare
`document_content[:12000]` slice with no truncation marker. -/
def extract_key_information_prompt (document_content : List Char)
    (info_type : String) : List Char :=
  ['\n'] ++ extractionPrompt info_type ++ "\n\nDOCUMENT CONTENT:\n".toList ++
  document_content.take 12000 ++
  "\n\nPlease provide a well-organized extraction:\n".toList

/-- The prompt `GeminiChat.answer_question` sends: a bare
`document_content[:12000]` slice with no truncation marker, then the
question. -/
def answer_question_prompt (question document_content : List Char) :
    List Char :=
  ("\nYou are answering a specific question about document content. Please:\n1. Provide a direct answer if the information is available\n2. Quote relevant sections from the document\n3. If the answer isn't in the document, clearly state that\n4. Provide context and explanation when helpful\n\nDOCUMENT CONTENT:\n").toList ++
  document_content.take 12000 ++
  "\n\nQUESTION: ".toList ++ question ++ "\n\nAnswer:\n".toList

/-! ## Sentiment parsing (`GeminiChat.analyze_sentiment`)

The response post-processing: `re.search(r'SCORE:\s*([-+]?\d*\.?\d+)',
response_text)`, `float` on the matched group, clamping, and the threshold
categories.  Python floats are modelled as exact rationals. -/

/-- The value of a run of decimal digits. -/
def digitsVal (ds : List Char) : Nat :=
  ds.foldl (fun a c => 10 * a + (c.toNat - 48)) 0

/-- The text the group `([-+]?\d*\.?\d+)` matches at the start of `l`,
greedily: an optional sign, an integer digit run, and `.` plus a fractional
digit run when a dot with at least one digit after it follows (when the dot
is not followed by a digit, backtracking drops the `\.?` and the match ends
with the integer digits).  `none` when the group does not match here at
all. -/
def numGroupAt (l : List Char) : Option (List Char) :=
  let sign : List Char :=
    match l with
    | '-' :: _ => ['-']
    | '+' :: _ => ['+']
    | _ => []
  let l1 := l.drop sign.length
  let ds1 := l1.takeWhile Char.isDigit
  match l1.dropWhile Char.isDigit with
  | '.' :: r2 =>
    let ds2 := r2.takeWhile Char.isDigit
    if ds2 ≠ [] then some (sign ++ ds1 ++ '.' :: ds2)
    else if ds1 ≠ [] then some (sign ++ ds1)
    else none
  | _ => if ds1 ≠ [] then some (sign ++ ds1) else none

/-- Whether the full score pattern matches at the start of `l` (the literal
`SCORE:`, then `\s*`, then the number group), and the group's text. -/
def scoreGroupAt (l : List Char) : Option (List Char) :=
  if l.take 6 = "SCORE:".toList then
    numGroupAt ((l.drop 6).dropWhile pyIsSpace)
  else none

/-- `re.search(r'SCORE:\s*([-+]?\d*\.?\d+)', text)`: the group text of the
match at the leftmost position where the whole pattern matches, scanning
left to right; `none` when the pattern matches nowhere. -/
def findScoreGroup : List Char → Option (List Char)
  | [] => none
  | c :: rest =>
    match scoreGroupAt (c :: rest) with
    | some g => some g
    | none => findScoreGroup rest

/-- Python `float` on an unsigned decimal literal `\d*(\.\d+)?` (the only
shapes the group can take once its sign is stripped). -/
def pyFloatUnsigned (t : List Char) : ℚ :=
  let ds1 := t.takeWhile Char.isDigit
  let r1 := t.dropWhile Char.isDigit
  if r1.take 1 = ['.'] then
    (digitsVal ds1 : ℚ) + (digitsVal (r1.drop 1) : ℚ) / (10 : ℚ) ^ (r1.drop 1).length
  else (digitsVal ds1 : ℚ)

/-- Python `float` on the matched group (exact value: floats are modelled
as rationals). -/
def pyFloat (s : List Char) : ℚ :=
  if s.take 1 = ['-'] then -pyFloatUnsigned (s.drop 1)
  else if s.take 1 = ['+'] then pyFloatUnsigned (s.drop 1)
  else pyFloatUnsigned s

/-- Python `min(a, b)`: `b` exactly when `b < a`. -/
def pyMin (a b : ℚ) : ℚ := if b < a then b else a

/-- Python `max(a, b)`: `b` exactly when `a < b`. -/
def pyMax (a b : ℚ) : ℚ := if a < b then b else a

/-- The dictionary `analyze_sentiment` returns. -/
structure SentimentResult where
  detailed_analysis : List Char
  sentiment_score : ℚ
  sentiment_category : String
deriving DecidableEq

/-- The response post-processing of `GeminiChat.analyze_sentiment` (the
non-exception path, `response_text` being the generated text): extract the
first `SCORE:` number if any and clamp it to `[-1, 1]`, defaulting to `0.0`;
derive the category by the `> 0.1` / `< -0.1` thresholds; return the full
response text as `detailed_analysis`. -/
def analyze_sentiment (response_text : List Char) : SentimentResult :=
  let score : ℚ :=
    match findScoreGroup response_text with
    | some g => pyMax (-1) (pyMin 1 (pyFloat g))
    | none => 0
  { detailed_analysis := response_text
    sentiment_score := score
    sentiment_category :=
      if score > 1 / 10 then "positive"
      else if score < -(1 / 10) then "negative"
      else "neutral" }

/-! ## The claims -/

/-- C2: a file whose declared MIME type is not one of the four supported
types makes `process_file` fail with the `Unsupported file type` error and
perform nothing at all: whatever the extractor table would do, the result
is the error, the event trace is empty, and in particular the file's bytes
are never read and no extractor is invoked. -/
theorem unsupported_mime_fails_fast
    (extract : String → List Nat → Except (List Char) (List Char))
    (f : UploadedFile) (h : f.type ∉ supportedMimes) :
    process_file extract f =
      (Except.error ("Unsupported file type: ".toList ++ f.type.toList), []) ∧
    FileEvent.readBytes ∉ (process_file extract f).2 ∧
    ∀ m, FileEvent.runExtractor m ∉ (process_file extract f).2 := by
  refine ⟨by simp [process_file, h], ?_, ?_⟩ <;> simp [process_file, h]

/-- C2 witness: a PNG MIME type at a concrete extractor table. -/
theorem unsupported_mime_fails_fast_witness :
    process_file (fun _ _ => Except.ok []) ⟨"image/png", [1, 2, 3]⟩ =
      (Except.error ("Unsupported file type: ".toList ++ "image/png".toList), []) ∧
    FileEvent.readBytes ∉
      (process_file (fun _ _ => Except.ok []) ⟨"image/png", [1, 2, 3]⟩).2 ∧
    ∀ m, FileEvent.runExtractor m ∉
      (process_file (fun _ _ => Except.ok []) ⟨"image/png", [1, 2, 3]⟩).2 :=
  unsupported_mime_fails_fast (fun _ _ => Except.ok []) ⟨"image/png", [1, 2, 3]⟩
    (by decide)

/-- C9: whatever the external generation endpoint does on a prompt, the
`generate` wrapper returns a response object: an endpoint exception `e`
becomes a normal-looking response whose text is the descriptive
`❌ Varsha Error: ...` string, and a successful response is passed
through — no exception ever reaches `generate`'s caller. -/
theorem generate_wraps_endpoint_errors
    (endpoint : List Char → Except (List Char) GenResponse) (prompt : List Char) :
    (∀ e, endpoint prompt = Except.error e →
      generate endpoint prompt = ⟨"❌ Varsha Error: ".toList ++ e⟩) ∧
    (∀ r, endpoint prompt = Except.ok r → generate endpoint prompt = r) := by
  constructor <;> intro x hx <;> simp [generate, hx]

/-- C10: on every byte string, the plain-text extractor succeeds: the
Latin-1 fallback decodes any sequence of bytes, so `process_txt` never
reaches its `Error decoding text file` branch. -/
theorem process_txt_total (content : List Nat) (h : ∀ b ∈ content, b < 256) :
    latin1Decode content = some (content.map Char.ofNat) ∧
    ∀ e, process_txt content ≠ Except.error e := by
  have hl : latin1Decode content = some (content.map Char.ofNat) := by
    simp only [latin1Decode, List.all_eq_true, decide_eq_true_eq]
    exact if_pos (fun b hb => h b hb)
  refine ⟨hl, fun e => ?_⟩
  unfold process_txt
  cases hu : utf8Decode content <;> simp [hu, hl]

/-- C10 witness: the single byte `0xff`, which is not valid UTF-8. -/
theorem process_txt_total_witness :
    latin1Decode [0xff] = some ([0xff].map Char.ofNat) ∧
    ∀ e, process_txt [0xff] ≠ Except.error e :=
  process_txt_total [0xff] (by decide)

/-- Keeping only the elements on which a predicate holds, mapped, is a
sublist of mapping everything. -/
theorem filterMap_ite_sublist_map {α β : Type} (l : List α) (f : α → β)
    (p : α → Prop) [DecidablePred p] :
    List.Sublist (l.filterMap fun a => if p a then some (f a) else none) (l.map f) := by
  induction l with
  | nil => simp
  | cons a t ih =>
    by_cases hp : p a
    · simpa [List.filterMap_cons, if_pos hp] using ih.cons₂ (f a)
    · simp only [List.filterMap_cons, if_neg hp, List.map_cons]
      exact ih.cons (f a)

/-- C5: the PDF extractor's output is exactly its kept page blocks joined
by one blank line; every kept block comes from a page whose stripped text
is non-empty, carries the 1-based number of that page in the document, and
the page numbers of the blocks are strictly increasing (so a page with
empty trimmed text contributes no block, and headers appear in order). -/
theorem pdf_extractor_spec (pages : List (List Char)) :
    process_pdf pages =
      List.intercalate nlnl ((pdfKept pages).map fun p => pageHeader p.1 ++ p.2) ∧
    (∀ p ∈ pdfKept pages, pyStrip p.2 ≠ [] ∧ 1 ≤ p.1 ∧ pages[p.1 - 1]? = some p.2) ∧
    ((pdfKept pages).map Prod.fst).Pairwise (· < ·) := by
  refine ⟨rfl, ?_, ?_⟩
  · rintro ⟨n, t'⟩ hp
    simp only [pdfKept, List.mem_filterMap] at hp
    obtain ⟨⟨i, t⟩, hmem, hif⟩ := hp
    split at hif
    · rename_i hs
      simp only [Option.some.injEq, Prod.mk.injEq] at hif
      obtain ⟨rfl, rfl⟩ := hif
      have hget : pages[i]? = some t := List.mem_enum_iff_getElem?.mp hmem
      refine ⟨hs, by omega, ?_⟩
      simpa using hget
    · exact absurd hif (by simp)
  · have hmapeq : (pdfKept pages).map Prod.fst =
        pages.enum.filterMap fun q => if pyStrip q.2 ≠ [] then some (q.1 + 1) else none := by
      simp only [pdfKept, List.map_filterMap]
      congr 1
      funext q
      by_cases hq : pyStrip q.2 ≠ [] <;> simp [hq]
    have hsub : List.Sublist
        (pages.enum.filterMap fun q => if pyStrip q.2 ≠ [] then some (q.1 + 1) else none)
        (pages.enum.map fun q => q.1 + 1) :=
      filterMap_ite_sublist_map _ _ _
    have hpw : (pages.enum.map fun q => q.1 + 1).Pairwise (· < ·) := by
      have heq : pages.enum.map (fun q => q.1 + 1) =
          (List.range pages.length).map (· + 1) := by
        rw [← List.enum_map_fst pages, List.map_map]; rfl
      rw [heq]
      exact (List.pairwise_lt_range _).map _ fun a b hab => by omega
    rw [hmapeq]
    exact List.Pairwise.sublist hsub hpw

/-- C6: the DOCX extractor's output is the non-empty paragraphs (in
document order) followed by the table blocks, joined by blank lines — the
two passes never interleave, every table block starts with the
`--- Table ---` header, and the spec's concrete example (two paragraphs and
one two-row table) comes out as stated. -/
theorem docx_extractor_spec (paragraphs : List (List Char)) (tables : List DocxTable) :
    process_docx paragraphs tables =
      List.intercalate nlnl
        (paragraphs.filter (fun p => pyStrip p ≠ []) ++ docxTableBlocks tables) ∧
    (∀ b ∈ docxTableBlocks tables, tableHeader <+: b) ∧
    process_docx ["First paragraph.".toList, "Second paragraph.".toList]
        [[["a1".toList, "b1".toList], ["a2".toList, "b2".toList]]] =
      "First paragraph.\n\nSecond paragraph.\n\n--- Table ---\na1 | b1\na2 | b2".toList := by
  refine ⟨rfl, ?_, by decide⟩
  intro b hb
  simp only [docxTableBlocks, List.mem_filterMap] at hb
  obtain ⟨table, _, hif⟩ := hb
  split at hif
  · simp only [Option.some.injEq] at hif
    subst hif
    exact List.prefix_append _ _
  · exact absurd hif (by simp)

/-- C7: the PPTX extractor joins the slide blocks (in presentation order,
numbered from 1) with blank lines; a slide whose shapes expose no non-empty
text and whose notes are absent or blank yields no block at all; a slide
with blank shapes but non-empty notes yields a block that is exactly the
slide header line and the `Notes:` line. -/
theorem pptx_extractor_spec (slides : List Slide) :
    process_pptx slides =
      List.intercalate nlnl (slides.enum.filterMap fun p => pptxBlock (p.1 + 1) p.2) ∧
    (∀ n s, (∀ t, some t ∈ s.shapes → pyStrip t = []) →
      (∀ t, s.notes = some t → pyStrip t = []) → pptxBlock n s = none) ∧
    (∀ n s nt, (∀ t, some t ∈ s.shapes → pyStrip t = []) → s.notes = some nt →
      pyStrip nt ≠ [] →
      pptxBlock n s = some (slideHeader n ++ '\n' :: ("Notes: ".toList ++ pyStrip nt))) := by
  have hshapes : ∀ s : Slide, (∀ t, some t ∈ s.shapes → pyStrip t = []) →
      (s.shapes.filterMap fun sh =>
        match sh with
        | some t => if pyStrip t ≠ [] then some (pyStrip t) else none
        | none => none) = [] := by
    intro s h1
    rw [List.filterMap_eq_nil_iff]
    intro sh hsh
    match sh with
    | none => rfl
    | some t => simp [h1 t hsh]
  refine ⟨rfl, ?_, ?_⟩
  · intro n s h1 h2
    have hlines : slideLines s = [] := by
      unfold slideLines
      rw [hshapes s h1]
      cases hn : s.notes with
      | none => rfl
      | some t => simp [h2 t hn]
    simp [pptxBlock, hlines]
  · intro n s nt h1 h2 h3
    have hlines : slideLines s = ["Notes: ".toList ++ pyStrip nt] := by
      unfold slideLines
      rw [hshapes s h1, h2]
      simp [h3]
    simp [pptxBlock, hlines, List.intercalate, List.intersperse]

/-- C3 (amended): every document-scoped prompt truncates the document text
to a fixed budget, but only the `chat_with_documents` prompt
(`_create_document_prompt`, budget 15000) appends the truncation marker
when the text exceeds its budget; `summarize_document`,
`extract_key_information` and `answer_question` embed the bare
`document_content[:12000]` slice with no marker. -/
theorem document_prompt_truncation (q d : List Char) (ty : String) :
    (d.length ≤ 15000 →
      create_document_prompt q d = docPromptPre ++ d ++ docPromptPost q) ∧
    (15000 < d.length →
      create_document_prompt q d =
        docPromptPre ++ (d.take 15000 ++ contentTruncatedMarker) ++ docPromptPost q ∧
      contentTruncatedMarker <:+: create_document_prompt q d) ∧
    summarize_document_prompt d ty =
      '\n' :: (summaryPrompt ty ++ "\n\nDOCUMENT CONTENT:\n".toList ++ d.take 12000 ++
        "\n\nPlease provide a clear and well-structured summary:\n".toList) ∧
    extract_key_information_prompt d ty =
      '\n' :: (extractionPrompt ty ++ "\n\nDOCUMENT CONTENT:\n".toList ++ d.take 12000 ++
        "\n\nPlease provide a well-organized extraction:\n".toList) ∧
    answer_question_prompt q d =
      ("\nYou are answering a specific question about document content. Please:\n1. Provide a direct answer if the information is available\n2. Quote relevant sections from the document\n3. If the answer isn't in the document, clearly state that\n4. Provide context and explanation when helpful\n\nDOCUMENT CONTENT:\n").toList ++
        d.take 12000 ++ "\n\nQUESTION: ".toList ++ q ++ "\n\nAnswer:\n".toList := by
  refine ⟨fun hle => ?_, fun hgt => ⟨?_, ?_⟩, ?_, ?_, ?_⟩
  · unfold create_document_prompt
    rw [if_neg (by omega)]
  · unfold create_document_prompt
    rw [if_pos (by omega)]
  · refine ⟨docPromptPre ++ d.take 15000, docPromptPost q, ?_⟩
    unfold create_document_prompt
    rw [if_pos (by omega)]
    simp only [List.append_assoc]
  · rfl
  · rfl
  · rfl

/-- C3 counterexample: a 15001-character document exceeds every budget in
the claim's 12000–15000 range, yet the summarize prompt built from it
contains no truncation marker anywhere (the marker contains `[` and no
character of the prompt is `[`). -/
theorem summarize_prompt_has_no_marker :
    15000 < (List.replicate 15001 'a').length ∧
    ¬ contentTruncatedMarker <:+:
        summarize_document_prompt (List.replicate 15001 'a') "general" := by
  refine ⟨by rw [List.length_replicate]; omega, fun hinf => ?_⟩
  have hmem : '[' ∈ summarize_document_prompt (List.replicate 15001 'a') "general" :=
    hinf.sublist.subset (by decide)
  simp only [summarize_document_prompt, List.mem_append, List.mem_cons,
    List.take_replicate, List.mem_replicate] at hmem
  rcases hmem with ((h | h) | h) | h
  · exact absurd h (by decide)
  · exact absurd h (by decide)
  · exact absurd h.2 (by decide)
  · exact absurd h (by decide)

/-- The category field is determined by the score field through the
`> 0.1` / `< -0.1` thresholds. -/
theorem analyze_sentiment_category_eq (t : List Char) :
    (analyze_sentiment t).sentiment_category =
      if 1 / 10 < (analyze_sentiment t).sentiment_score then "positive"
      else if (analyze_sentiment t).sentiment_score < -(1 / 10) then "negative"
      else "neutral" := rfl

/-- C4: `analyze_sentiment` always returns the full response text as
`detailed_analysis`; with no `SCORE:` match the score defaults to `0.0`
and the category to `neutral`; with a match the score is the matched
number clamped to `[-1, 1]`; the category derives from the score by the
`> 0.1` / `< -0.1` thresholds; and the spec's four examples hold
(`SCORE: 0.73` is positive with score 0.73, `SCORE: -0.9` is negative, a
response with no score line is neutral with score 0.0, and `SCORE: 5`
clamps to 1.0). -/
theorem sentiment_parsing_spec :
    (∀ t, (analyze_sentiment t).detailed_analysis = t) ∧
    (∀ t, findScoreGroup t = none → (analyze_sentiment t).sentiment_score = 0 ∧
      (analyze_sentiment t).sentiment_category = "neutral") ∧
    (∀ t g, findScoreGroup t = some g →
      (analyze_sentiment t).sentiment_score = pyMax (-1) (pyMin 1 (pyFloat g)) ∧
      -1 ≤ (analyze_sentiment t).sentiment_score ∧
      (analyze_sentiment t).sentiment_score ≤ 1) ∧
    (∀ t, ((analyze_sentiment t).sentiment_category = "positive" ↔
        1 / 10 < (analyze_sentiment t).sentiment_score) ∧
      ((analyze_sentiment t).sentiment_category = "negative" ↔
        (analyze_sentiment t).sentiment_score < -(1 / 10)) ∧
      ((analyze_sentiment t).sentiment_category = "neutral" ↔
        -(1 / 10) ≤ (analyze_sentiment t).sentiment_score ∧
        (analyze_sentiment t).sentiment_score ≤ 1 / 10)) ∧
    (analyze_sentiment "The tone is upbeat. SCORE: 0.73\nANALYSIS: good".toList).sentiment_score
        = 73 / 100 ∧
    (analyze_sentiment "The tone is upbeat. SCORE: 0.73\nANALYSIS: good".toList).sentiment_category
        = "positive" ∧
    (analyze_sentiment "SCORE: -0.9".toList).sentiment_category = "negative" ∧
    (analyze_sentiment "No numeric verdict here.".toList).sentiment_score = 0 ∧
    (analyze_sentiment "No numeric verdict here.".toList).sentiment_category = "neutral" ∧
    (analyze_sentiment "SCORE: 5".toList).sentiment_score = 1 ∧
    (analyze_sentiment "SCORE: 5".toList).sentiment_category = "positive" := by
  have hd9 : digitsVal ['9'] = 9 := by decide
  have hd5 : digitsVal ['5'] = 5 := by decide
  have hd73 : digitsVal ['7', '3'] = 73 := by decide
  have hd0 : digitsVal ['0'] = 0 := by decide
  have hcat : ∀ t, ((analyze_sentiment t).sentiment_category = "positive" ↔
        1 / 10 < (analyze_sentiment t).sentiment_score) ∧
      ((analyze_sentiment t).sentiment_category = "negative" ↔
        (analyze_sentiment t).sentiment_score < -(1 / 10)) ∧
      ((analyze_sentiment t).sentiment_category = "neutral" ↔
        -(1 / 10) ≤ (analyze_sentiment t).sentiment_score ∧
        (analyze_sentiment t).sentiment_score ≤ 1 / 10) := by
    intro t
    rw [analyze_sentiment_category_eq t]
    set s := (analyze_sentiment t).sentiment_score with hs
    by_cases h1 : 1 / 10 < s
    · rw [if_pos h1]
      exact ⟨iff_of_true rfl h1,
        iff_of_false (by decide) (by intro h2; linarith),
        iff_of_false (by decide) (by intro hx; linarith [hx.2])⟩
    · by_cases h2 : s < -(1 / 10)
      · rw [if_neg h1, if_pos h2]
        exact ⟨iff_of_false (by decide) h1, iff_of_true rfl h2,
          iff_of_false (by decide) (by intro hx; linarith [hx.1])⟩
      · rw [if_neg h1, if_neg h2]
        exact ⟨iff_of_false (by decide) h1, iff_of_false (by decide) h2,
          iff_of_true rfl ⟨by linarith, by linarith⟩⟩
  refine ⟨fun t => rfl, ?_, ?_, hcat, ?_, ?_, ?_, ?_, ?_, ?_, ?_⟩
  · intro t ht
    constructor
    · simp [analyze_sentiment, ht]
    · have hsc : (analyze_sentiment t).sentiment_score = 0 := by
        simp [analyze_sentiment, ht]
      rw [analyze_sentiment_category_eq t, hsc]
      norm_num
  · intro t g ht
    have hs : (analyze_sentiment t).sentiment_score = pyMax (-1) (pyMin 1 (pyFloat g)) := by
      simp [analyze_sentiment, ht]
    refine ⟨hs, ?_, ?_⟩ <;> rw [hs] <;> unfold pyMax pyMin <;> split <;> split <;> linarith
  · have h : findScoreGroup "The tone is upbeat. SCORE: 0.73\nANALYSIS: good".toList
        = some "0.73".toList := by decide
    simp only [analyze_sentiment, h]
    norm_num +decide [pyFloat, pyFloatUnsigned, hd73, hd0, pyMin, pyMax]
  · have h : findScoreGroup "The tone is upbeat. SCORE: 0.73\nANALYSIS: good".toList
        = some "0.73".toList := by decide
    have hsc : (analyze_sentiment
        "The tone is upbeat. SCORE: 0.73\nANALYSIS: good".toList).sentiment_score
        = 73 / 100 := by
      simp only [analyze_sentiment, h]
      norm_num +decide [pyFloat, pyFloatUnsigned, hd73, hd0, pyMin, pyMax]
    rw [analyze_sentiment_category_eq, hsc,
      if_pos (by norm_num : (1 : ℚ) / 10 < 73 / 100)]
  · have h : findScoreGroup "SCORE: -0.9".toList = some "-0.9".toList := by decide
    have hsc : (analyze_sentiment "SCORE: -0.9".toList).sentiment_score = -(9 / 10) := by
      simp only [analyze_sentiment, h]
      norm_num +decide [pyFloat, pyFloatUnsigned, hd9, hd0, pyMin, pyMax]
    rw [analyze_sentiment_category_eq, hsc, if_neg (by norm_num), if_pos (by norm_num)]
  · have h : findScoreGroup "No numeric verdict here.".toList = none := by decide
    simp only [analyze_sentiment, h]
  · have h : findScoreGroup "No numeric verdict here.".toList = none := by decide
    have hsc : (analyze_sentiment "No numeric verdict here.".toList).sentiment_score
        = 0 := by
      simp only [analyze_sentiment, h]
    rw [analyze_sentiment_category_eq, hsc, if_neg (by norm_num), if_neg (by norm_num)]
  · have h : findScoreGroup "SCORE: 5".toList = some "5".toList := by decide
    simp only [analyze_sentiment, h]
    norm_num +decide [pyFloat, pyFloatUnsigned, hd5, pyMin, pyMax]
  · have h : findScoreGroup "SCORE: 5".toList = some "5".toList := by decide
    have hsc : (analyze_sentiment "SCORE: 5".toList).sentiment_score = 1 := by
      simp only [analyze_sentiment, h]
      norm_num +decide [pyFloat, pyFloatUnsigned, hd5, pyMin, pyMax]
    rw [analyze_sentiment_category_eq, hsc, if_pos (by norm_num)]

/-- Decoding a two-byte UTF-8 sequence for a code point in `0x80..0x7FF`. -/
theorem utf8Decode_two (n : Nat) (r : List Nat) (h1 : 0x80 ≤ n) (h2 : n < 0x800) :
    utf8Decode ((0xc0 + n / 64) :: (0x80 + n % 64) :: r) =
      (utf8Decode r).map (Char.ofNat n :: ·) := by
  have hcont : isCont (0x80 + n % 64) = true := by
    simp only [isCont, Bool.and_eq_true, decide_eq_true_eq]
    omega
  rw [utf8Decode]
  simp only [List.getD_cons_zero, List.getD_cons_succ, List.length_cons,
    List.drop_succ_cons, List.drop_zero]
  rw [if_neg (by omega), if_pos (by constructor <;> omega),
    if_pos ⟨by omega, hcont⟩]
  have hval : (0xc0 + n / 64 - 0xc0) * 64 + (0x80 + n % 64 - 0x80) = n := by omega
  rw [hval]

/-- Decoding a three-byte UTF-8 sequence for a non-surrogate code point in
`0x800..0xFFFF`. -/
theorem utf8Decode_three (n : Nat) (r : List Nat) (h1 : 0x800 ≤ n) (h2 : n < 0x10000)
    (hv : n < 0xd800 ∨ 0xdfff < n) :
    utf8Decode ((0xe0 + n / 4096) :: (0x80 + n / 64 % 64) :: (0x80 + n % 64) :: r) =
      (utf8Decode r).map (Char.ofNat n :: ·) := by
  have hc3 : cont3Ok (0xe0 + n / 4096) (0x80 + n / 64 % 64) = true := by
    unfold cont3Ok
    rcases hv with hv | hv
    · split
      · rename_i he
        simp only [Bool.and_eq_true, decide_eq_true_eq]
        omega
      · split
        · rename_i hne he
          simp only [Bool.and_eq_true, decide_eq_true_eq]
          omega
        · simp only [isCont, Bool.and_eq_true, decide_eq_true_eq]
          omega
    · split
      · rename_i he
        simp only [Bool.and_eq_true, decide_eq_true_eq]
        omega
      · split
        · rename_i hne he
          simp only [Bool.and_eq_true, decide_eq_true_eq]
          omega
        · simp only [isCont, Bool.and_eq_true, decide_eq_true_eq]
          omega
  have hcont : isCont (0x80 + n % 64) = true := by
    simp only [isCont, Bool.and_eq_true, decide_eq_true_eq]
    omega
  rw [utf8Decode]
  simp only [List.getD_cons_zero, List.getD_cons_succ, List.length_cons,
    List.drop_succ_cons, List.drop_zero]
  rw [if_neg (by omega), if_neg (by intro hx; omega),
    if_pos (by constructor <;> omega), if_pos ⟨by omega, hc3, hcont⟩]
  have hval : (0xe0 + n / 4096 - 0xe0) * 4096 + (0x80 + n / 64 % 64 - 0x80) * 64 +
      (0x80 + n % 64 - 0x80) = n := by omega
  rw [hval]

/-- Decoding a four-byte UTF-8 sequence for a code point in
`0x10000..0x10FFFF`. -/
theorem utf8Decode_four (n : Nat) (r : List Nat) (h1 : 0x10000 ≤ n)
    (h2 : n < 0x110000) :
    utf8Decode ((0xf0 + n / 262144) :: (0x80 + n / 4096 % 64) ::
        (0x80 + n / 64 % 64) :: (0x80 + n % 64) :: r) =
      (utf8Decode r).map (Char.ofNat n :: ·) := by
  have hc4 : cont4Ok (0xf0 + n / 262144) (0x80 + n / 4096 % 64) = true := by
    unfold cont4Ok
    split
    · rename_i he
      simp only [Bool.and_eq_true, decide_eq_true_eq]
      omega
    · split
      · rename_i hne he
        simp only [Bool.and_eq_true, decide_eq_true_eq]
        omega
      · simp only [isCont, Bool.and_eq_true, decide_eq_true_eq]
        omega
  have hcont2 : isCont (0x80 + n / 64 % 64) = true := by
    simp only [isCont, Bool.and_eq_true, decide_eq_true_eq]
    omega
  have hcont3 : isCont (0x80 + n % 64) = true := by
    simp only [isCont, Bool.and_eq_true, decide_eq_true_eq]
    omega
  rw [utf8Decode]
  simp only [List.getD_cons_zero, List.getD_cons_succ, List.length_cons,
    List.drop_succ_cons, List.drop_zero]
  rw [if_neg (by omega), if_neg (by intro hx; omega), if_neg (by intro hx; omega),
    if_pos (by constructor <;> omega), if_pos ⟨by omega, hc4, hcont2, hcont3⟩]
  have hval : (0xf0 + n / 262144 - 0xf0) * 262144 + (0x80 + n / 4096 % 64 - 0x80) * 4096 +
      (0x80 + n / 64 % 64 - 0x80) * 64 + (0x80 + n % 64 - 0x80) = n := by omega
  rw [hval]

/-- Prepending one character's UTF-8 encoding to a byte stream prepends that
character to the decoded text. -/
theorem utf8Decode_encodeChar (c : Char) (r : List Nat) :
    utf8Decode (utf8EncodeChar c ++ r) = (utf8Decode r).map (c :: ·) := by
  have hv : c.toNat < 0xd800 ∨ (0xdfff < c.toNat ∧ c.toNat < 0x110000) := c.valid
  have hofn : Char.ofNat c.toNat = c := Char.ofNat_toNat c
  by_cases h1 : c.toNat < 0x80
  · have he : utf8EncodeChar c = [c.toNat] := by
      unfold utf8EncodeChar
      rw [if_pos h1]
    rw [he, List.cons_append, List.nil_append, utf8Decode]
    rw [if_pos h1, hofn]
  · by_cases h2 : c.toNat < 0x800
    · have he : utf8EncodeChar c = [0xc0 + c.toNat / 64, 0x80 + c.toNat % 64] := by
        unfold utf8EncodeChar
        rw [if_neg h1, if_pos h2]
      rw [he, List.cons_append, List.cons_append, List.nil_append,
        utf8Decode_two c.toNat r (by omega) h2, hofn]
    · by_cases h3 : c.toNat < 0x10000
      · have he : utf8EncodeChar c = [0xe0 + c.toNat / 4096, 0x80 + c.toNat / 64 % 64,
            0x80 + c.toNat % 64] := by
          unfold utf8EncodeChar
          rw [if_neg h1, if_neg h2, if_pos h3]
        have hv' : c.toNat < 0xd800 ∨ 0xdfff < c.toNat := by
          rcases hv with hv | hv
          · exact Or.inl hv
          · exact Or.inr hv.1
        rw [he, List.cons_append, List.cons_append, List.cons_append, List.nil_append,
          utf8Decode_three c.toNat r (by omega) h3 hv', hofn]
      · have he : utf8EncodeChar c = [0xf0 + c.toNat / 262144, 0x80 + c.toNat / 4096 % 64,
            0x80 + c.toNat / 64 % 64, 0x80 + c.toNat % 64] := by
          unfold utf8EncodeChar
          rw [if_neg h1, if_neg h2, if_neg h3]
        have hup : c.toNat < 0x110000 := by
          rcases hv with hv | hv
          · omega
          · exact hv.2
        rw [he, List.cons_append, List.cons_append, List.cons_append, List.cons_append,
          List.nil_append, utf8Decode_four c.toNat r (by omega) hup, hofn]

/-- UTF-8 decoding is a left inverse of UTF-8 encoding. -/
theorem utf8Decode_utf8Encode (s : List Char) : utf8Decode (utf8Encode s) = some s := by
  induction s with
  | nil =>
    show utf8Decode [] = some []
    rw [utf8Decode]
  | cons c s ih =>
    have he : utf8Encode (c :: s) = utf8EncodeChar c ++ utf8Encode s := by
      simp [utf8Encode]
    rw [he, utf8Decode_encodeChar, ih]
    rfl

/-- C8: the plain-text extractor decodes valid UTF-8 exactly (decoding the
UTF-8 encoding of any text yields that text back), and on bytes that are
not valid UTF-8 it succeeds through the Latin-1 fallback, mapping each byte
to the character of the same code point. -/
theorem txt_decode_spec :
    (∀ s : List Char, process_txt (utf8Encode s) = Except.ok s) ∧
    (∀ bytes : List Nat, (∀ b ∈ bytes, b < 256) → utf8Decode bytes = none →
      process_txt bytes = Except.ok (bytes.map Char.ofNat)) := by
  constructor
  · intro s
    unfold process_txt
    rw [utf8Decode_utf8Encode]
  · intro bytes hb hu
    unfold process_txt
    rw [hu]
    have hl : latin1Decode bytes = some (bytes.map Char.ofNat) := by
      simp only [latin1Decode, List.all_eq_true, decide_eq_true_eq]
      exact if_pos fun b hbm => hb b hbm
    rw [hl]

/-! ## Lemmas about the cleaner, leading to claim C1 -/

theorem pyIsSpace_nl : pyIsSpace '\n' = true := by decide

theorem pyIsSpace_sp : pyIsSpace ' ' = true := by decide

theorem headFails_nil (q : Char → Bool) : headFails q [] := trivial

theorem headFails_cons {q : Char → Bool} {c : Char} {l : List Char}
    (h : q c = false) : headFails q (c :: l) := h

/-- A list whose head fails `q` has an empty `takeWhile q`. -/
theorem takeWhile_eq_nil_of_headFails {q : Char → Bool} {l : List Char}
    (h : headFails q l) : l.takeWhile q = [] := by
  cases l with
  | nil => rfl
  | cons c t => exact List.takeWhile_cons_of_neg (by simp [headFails] at h; simp [h])

/-- A list whose head fails `q` is unchanged by `dropWhile q`. -/
theorem dropWhile_eq_self_of_headFails {q : Char → Bool} {l : List Char}
    (h : headFails q l) : l.dropWhile q = l := by
  cases l with
  | nil => rfl
  | cons c t => exact List.dropWhile_cons_of_neg (by simp [headFails] at h; simp [h])

theorem headFails_dropWhile (q : Char → Bool) (l : List Char) :
    headFails q (l.dropWhile q) := by
  induction l with
  | nil => trivial
  | cons c t ih =>
    by_cases hc : q c = true
    · rw [List.dropWhile_cons_of_pos hc]
      exact ih
    · rw [List.dropWhile_cons_of_neg (by simpa using hc)]
      exact headFails_cons (by simpa using hc)

/-- `takeWhile` walks through a block that wholly satisfies `q`. -/
theorem takeWhile_append_all {q : Char → Bool} {s : List Char} (u : List Char)
    (hs : ∀ c ∈ s, q c = true) : (s ++ u).takeWhile q = s ++ u.takeWhile q := by
  induction s with
  | nil => rfl
  | cons c t ih =>
    rw [List.cons_append, List.takeWhile_cons_of_pos (hs c (by simp)),
      ih fun d hd => hs d (by simp [hd]), List.cons_append]

/-- With an all-`q` block before a list whose head fails `q`, `takeWhile q`
is exactly the block. -/
theorem takeWhile_append_exact {q : Char → Bool} {s u : List Char}
    (hs : ∀ c ∈ s, q c = true) (hu : headFails q u) : (s ++ u).takeWhile q = s := by
  rw [takeWhile_append_all u hs, takeWhile_eq_nil_of_headFails hu, List.append_nil]

theorem countNl_append (a b : List Char) : countNl (a ++ b) = countNl a + countNl b :=
  List.count_append _ _ _

/-- Unfolding `noTriNl` at a cons cell. -/
theorem noTriNl_cons_iff {c : Char} {l : List Char} :
    noTriNl (c :: l) = true ↔
      ¬(c = '\n' ∧ 2 ≤ countNl (l.takeWhile pyIsSpace)) ∧ noTriNl l = true := by
  simp [noTriNl, Decidable.not_and_iff_or_not, imp_iff_not_or, Nat.not_le]

theorem noTriNl_tail {c : Char} {l : List Char} (h : noTriNl (c :: l) = true) :
    noTriNl l = true := (noTriNl_cons_iff.mp h).2

theorem noTriNl_appendRight {a b : List Char} (h : noTriNl (a ++ b) = true) :
    noTriNl b = true := by
  induction a with
  | nil => exact h
  | cons c t ih => exact ih (noTriNl_tail h)

/-- Extending a list on the right can only increase the newline count of
its whitespace prefix. -/
theorem countNl_takeWhile_le_append (a b : List Char) :
    countNl (a.takeWhile pyIsSpace) ≤ countNl ((a ++ b).takeWhile pyIsSpace) := by
  induction a with
  | nil => simp [countNl]
  | cons c t ih =>
    by_cases hc : pyIsSpace c = true
    · rw [List.takeWhile_cons_of_pos hc, List.cons_append, List.takeWhile_cons_of_pos hc]
      simp only [countNl, List.count_cons]
      have := ih
      simp only [countNl] at this
      omega
    · rw [List.takeWhile_cons_of_neg (by simpa using hc)]
      simp [countNl]

theorem noTriNl_appendLeft {a b : List Char} (h : noTriNl (a ++ b) = true) :
    noTriNl a = true := by
  induction a with
  | nil => rfl
  | cons c t ih =>
    rw [List.cons_append] at h
    obtain ⟨hcond, htail⟩ := noTriNl_cons_iff.mp h
    refine noTriNl_cons_iff.mpr ⟨?_, ih htail⟩
    intro ⟨hc, hcount⟩
    exact hcond ⟨hc, le_trans hcount (countNl_takeWhile_le_append t b)⟩

theorem noTriNl_of_infix {m l : List Char} (h : m <:+: l) (hl : noTriNl l = true) :
    noTriNl m = true := by
  obtain ⟨s, t, rfl⟩ := h
  exact noTriNl_appendLeft (noTriNl_appendRight (by simpa using hl))

/-- The stripped text is an infix of the text. -/
theorem pyStrip_isInfix (l : List Char) : pyStrip l <:+: l := by
  unfold pyStrip
  have h1 : (l.dropWhile pyIsSpace) <:+ l := List.dropWhile_suffix _
  have h2 : ((l.dropWhile pyIsSpace).reverse.dropWhile pyIsSpace).reverse
      <+: l.dropWhile pyIsSpace := by
    rw [← List.reverse_suffix]
    simpa using List.dropWhile_suffix (l := (l.dropWhile pyIsSpace).reverse) pyIsSpace
  exact h2.isInfix.trans h1.isInfix

theorem noTriNl_pyStrip {l : List Char} (h : noTriNl l = true) :
    noTriNl (pyStrip l) = true := noTriNl_of_infix (pyStrip_isInfix l) h

theorem collapseNl_nil : collapseNl [] = [] := by rw [collapseNl]

theorem collapseNl_cons_other {c : Char} (l : List Char) (h : ¬ c = '\n') :
    collapseNl (c :: l) = c :: collapseNl l := by
  rw [collapseNl, if_neg h]

theorem collapseNl_cons_low (l : List Char)
    (h : ¬ 2 ≤ countNl (l.takeWhile pyIsSpace)) :
    collapseNl ('\n' :: l) = '\n' :: collapseNl l := by
  rw [collapseNl, if_pos rfl, if_neg h]

theorem collapseNl_cons_high (l : List Char)
    (h : 2 ≤ countNl (l.takeWhile pyIsSpace)) :
    collapseNl ('\n' :: l) = '\n' :: '\n' ::
      collapseNl (afterLastNl (l.takeWhile pyIsSpace) ++ l.dropWhile pyIsSpace) := by
  rw [collapseNl, if_pos rfl, if_pos h]

/-- Everything after the last newline of `p` is a non-newline member of `p`. -/
theorem afterLastNl_all {p : List Char} : ∀ c ∈ afterLastNl p, c ∈ p ∧ ¬ c = '\n' := by
  intro c hc
  unfold afterLastNl at hc
  rw [List.mem_reverse] at hc
  have h1 := List.mem_takeWhile_imp hc
  have h2 : c ∈ p.reverse := (List.takeWhile_sublist _).subset hc
  exact ⟨List.mem_reverse.mp h2, by simpa using h1⟩

theorem countNl_afterLastNl (p : List Char) : countNl (afterLastNl p) = 0 := by
  rw [countNl, List.count_eq_zero]
  intro hmem
  exact absurd rfl (afterLastNl_all '\n' hmem).2

theorem countNl_cons_nl (t : List Char) : countNl ('\n' :: t) = countNl t + 1 := by
  simp [countNl, List.count_cons]

theorem countNl_cons_other {c : Char} (t : List Char) (h : ¬ c = '\n') :
    countNl (c :: t) = countNl t := by
  simp [countNl, List.count_cons, h]

/-- Scanning walks through an all-whitespace block holding at most one
newline without rewriting anything (no match can start inside it when the
text after the block does not start with whitespace). -/
theorem collapseNl_space_append {p r : List Char}
    (hp : ∀ c ∈ p, pyIsSpace c = true) (hc : countNl p ≤ 1)
    (hr : headFails pyIsSpace r) :
    collapseNl (p ++ r) = p ++ collapseNl r := by
  induction p with
  | nil => rfl
  | cons c t ih =>
    have htw : (t ++ r).takeWhile pyIsSpace = t :=
      takeWhile_append_exact (fun d hd => hp d (by simp [hd])) hr
    by_cases hcn : c = '\n'
    · subst hcn
      have hct : countNl t = 0 := by
        have := countNl_cons_nl t
        omega
    -- the newline of the block has no two more newlines after it
      rw [List.cons_append, collapseNl_cons_low _ (by rw [htw]; omega),
        ih (fun d hd => hp d (by simp [hd])) (by omega), List.cons_append]
    · have hct : countNl t ≤ 1 := by
        have := countNl_cons_other t hcn
        omega
      rw [List.cons_append, collapseNl_cons_other _ hcn,
        ih (fun d hd => hp d (by simp [hd])) hct, List.cons_append]

theorem headFails_collapseNl {r : List Char} (h : headFails pyIsSpace r) :
    headFails pyIsSpace (collapseNl r) := by
  cases r with
  | nil => rw [collapseNl_nil]; trivial
  | cons c t =>
    have hcs : pyIsSpace c = false := h
    have hcn : ¬ c = '\n' := by
      intro he
      subst he
      rw [pyIsSpace_nl] at hcs
      exact Bool.true_eq_false.mp hcs
    rw [collapseNl_cons_other t hcn]
    exact headFails_cons hcs

/-- One pass of the first substitution leaves no match behind: this is the
core of the cleaner's idempotence. -/
theorem noTriNl_collapseNl (l : List Char) : noTriNl (collapseNl l) = true := by
  induction l using collapseNl.induct with
  | case1 => rw [collapseNl_nil]; rfl
  | case2 rest hc ih =>
    rw [collapseNl_cons_high rest hc]
    have hq_all : ∀ c ∈ afterLastNl (rest.takeWhile pyIsSpace), pyIsSpace c = true :=
      fun c hcm => List.mem_takeWhile_imp (afterLastNl_all c hcm).1
    have hq0 : countNl (afterLastNl (rest.takeWhile pyIsSpace)) = 0 :=
      countNl_afterLastNl _
    have hrf : headFails pyIsSpace (rest.dropWhile pyIsSpace) := headFails_dropWhile _ _
    have hcopy : collapseNl (afterLastNl (rest.takeWhile pyIsSpace) ++
          rest.dropWhile pyIsSpace) =
        afterLastNl (rest.takeWhile pyIsSpace) ++
          collapseNl (rest.dropWhile pyIsSpace) :=
      collapseNl_space_append hq_all (by omega) hrf
    have htwq : (afterLastNl (rest.takeWhile pyIsSpace) ++
          collapseNl (rest.dropWhile pyIsSpace)).takeWhile pyIsSpace =
        afterLastNl (rest.takeWhile pyIsSpace) :=
      takeWhile_append_exact hq_all (headFails_collapseNl hrf)
    rw [hcopy]
    refine noTriNl_cons_iff.mpr ⟨?_, noTriNl_cons_iff.mpr ⟨?_, ?_⟩⟩
    · rintro ⟨-, hcount⟩
      rw [List.takeWhile_cons_of_pos pyIsSpace_nl, htwq, countNl_cons_nl] at hcount
      omega
    · rintro ⟨-, hcount⟩
      rw [htwq] at hcount
      omega
    · rw [← hcopy]
      exact ih
  | case3 rest hc ih =>
    rw [collapseNl_cons_low rest hc]
    have hp_all : ∀ c ∈ rest.takeWhile pyIsSpace, pyIsSpace c = true :=
      fun c h => List.mem_takeWhile_imp h
    have hrf : headFails pyIsSpace (rest.dropWhile pyIsSpace) := headFails_dropWhile _ _
    have hcopy : collapseNl rest =
        rest.takeWhile pyIsSpace ++ collapseNl (rest.dropWhile pyIsSpace) := by
      conv_lhs => rw [← List.takeWhile_append_dropWhile (p := pyIsSpace) (l := rest)]
      exact collapseNl_space_append hp_all (by omega) hrf
    refine noTriNl_cons_iff.mpr ⟨?_, ih⟩
    rintro ⟨-, hcount⟩
    rw [hcopy, takeWhile_append_exact hp_all (headFails_collapseNl hrf)] at hcount
    omega
  | case4 c rest h ih =>
    rw [collapseNl_cons_other rest h]
    exact noTriNl_cons_iff.mpr ⟨fun hx => h hx.1, ih⟩

/-- A text with no match of the newline pattern is a fixed point of the
first substitution. -/
theorem collapseNl_eq_self {l : List Char} (h : noTriNl l = true) :
    collapseNl l = l := by
  induction l with
  | nil => exact collapseNl_nil
  | cons c t ih =>
    obtain ⟨hcond, htail⟩ := noTriNl_cons_iff.mp h
    by_cases hcn : c = '\n'
    · subst hcn
      rw [collapseNl_cons_low t (fun hcount => hcond ⟨rfl, hcount⟩), ih htail]
    · rw [collapseNl_cons_other t hcn, ih htail]

theorem collapseSp_nil : collapseSp [] = [] := by rw [collapseSp]

theorem collapseSp_one (c : Char) : collapseSp [c] = [c] := by rw [collapseSp]

theorem collapseSp_cons_match (rest : List Char) :
    collapseSp (' ' :: ' ' :: rest) =
      ' ' :: collapseSp (rest.dropWhile (fun c => c == ' ')) := by
  rw [collapseSp, if_pos ⟨rfl, rfl⟩]

theorem collapseSp_cons_other {c1 c2 : Char} (rest : List Char)
    (h : ¬(c1 = ' ' ∧ c2 = ' ')) :
    collapseSp (c1 :: c2 :: rest) = c1 :: collapseSp (c2 :: rest) := by
  rw [collapseSp, if_neg h]

theorem noDblSp_cons_cons_iff {c1 c2 : Char} {l : List Char} :
    noDblSp (c1 :: c2 :: l) = true ↔
      ¬(c1 = ' ' ∧ c2 = ' ') ∧ noDblSp (c2 :: l) = true := by
  simp only [noDblSp, Bool.and_eq_true, Bool.not_eq_true', Bool.and_eq_false_iff,
    beq_eq_false_iff_ne, ne_eq, Decidable.not_and_iff_or_not]

theorem noDblSp_tail {c : Char} {l : List Char} (h : noDblSp (c :: l) = true) :
    noDblSp l = true := by
  cases l with
  | nil => rfl
  | cons b t => exact (noDblSp_cons_cons_iff.mp h).2

theorem noDblSp_cons_of {a : Char} {m : List Char} (h : noDblSp m = true)
    (hh : a = ' ' → ¬ m.head? = some ' ') : noDblSp (a :: m) = true := by
  cases m with
  | nil => rfl
  | cons b t =>
    refine noDblSp_cons_cons_iff.mpr ⟨?_, h⟩
    rintro ⟨ha, hb⟩
    exact hh ha (by simp [hb])

theorem head?_ne_sp_of_headFails {u : List Char}
    (h : headFails (fun c => c == ' ') u) : ¬ u.head? = some ' ' := by
  cases u with
  | nil => simp
  | cons c t =>
    have hc : (c == ' ') = false := h
    simp only [List.head?_cons, Option.some.injEq]
    intro he
    rw [he] at hc
    simp at hc

/-- The second substitution never changes the first character. -/
theorem head?_collapseSp (u : List Char) : (collapseSp u).head? = u.head? := by
  match u with
  | [] => rw [collapseSp_nil]
  | [c] => rw [collapseSp_one]
  | c1 :: c2 :: rest =>
    by_cases h : c1 = ' ' ∧ c2 = ' '
    · obtain ⟨h1, h2⟩ := h
      subst h1
      subst h2
      rw [collapseSp_cons_match]
      rfl
    · rw [collapseSp_cons_other rest h]
      rfl

/-- One pass of the second substitution leaves no run of two or more
spaces. -/
theorem noDblSp_collapseSp (l : List Char) : noDblSp (collapseSp l) = true := by
  induction l using collapseSp.induct with
  | case1 => rw [collapseSp_nil]; rfl
  | case2 c => rw [collapseSp_one]; rfl
  | case3 c1 c2 rest h ih =>
    obtain ⟨h1, h2⟩ := h
    subst h1
    subst h2
    rw [collapseSp_cons_match]
    refine noDblSp_cons_of ih fun _ => ?_
    rw [head?_collapseSp]
    exact head?_ne_sp_of_headFails (headFails_dropWhile _ _)
  | case4 c1 c2 rest h ih =>
    rw [collapseSp_cons_other rest h]
    refine noDblSp_cons_of ih fun ha he => ?_
    rw [head?_collapseSp] at he
    simp only [List.head?_cons, Option.some.injEq] at he
    exact h ⟨ha, he⟩

/-- A text with no double space is a fixed point of the second
substitution. -/
theorem collapseSp_eq_self {l : List Char} (h : noDblSp l = true) :
    collapseSp l = l := by
  induction l using collapseSp.induct with
  | case1 => exact collapseSp_nil
  | case2 c => exact collapseSp_one c
  | case3 c1 c2 rest hm ih =>
    obtain ⟨h1, h2⟩ := hm
    subst h1
    subst h2
    exact absurd ⟨rfl, rfl⟩ (noDblSp_cons_cons_iff.mp h).1
  | case4 c1 c2 rest hm ih =>
    rw [collapseSp_cons_other rest hm, ih (noDblSp_tail h)]

/-- The second substitution does not increase the newline count of the
whitespace prefix. -/
theorem countNl_takeWhile_collapseSp (l : List Char) :
    countNl ((collapseSp l).takeWhile pyIsSpace) ≤
      countNl (l.takeWhile pyIsSpace) := by
  induction l using collapseSp.induct with
  | case1 => rw [collapseSp_nil]
  | case2 c => rw [collapseSp_one]
  | case3 c1 c2 rest hm ih =>
    obtain ⟨h1, h2⟩ := hm
    subst h1
    subst h2
    rw [collapseSp_cons_match, List.takeWhile_cons_of_pos pyIsSpace_sp,
      List.takeWhile_cons_of_pos pyIsSpace_sp, List.takeWhile_cons_of_pos pyIsSpace_sp,
      countNl_cons_other _ (by decide), countNl_cons_other _ (by decide),
      countNl_cons_other _ (by decide)]
    have hsplit : countNl (rest.takeWhile pyIsSpace) =
        countNl ((rest.dropWhile (fun c => c == ' ')).takeWhile pyIsSpace) := by
      conv_lhs =>
        rw [← List.takeWhile_append_dropWhile (p := fun c => c == ' ') (l := rest)]
      rw [takeWhile_append_all _ fun c hc => ?_, countNl_append]
      · have hz : countNl (rest.takeWhile (fun c => c == ' ')) = 0 := by
          rw [countNl, List.count_eq_zero]
          intro hmem
          have := List.mem_takeWhile_imp hmem
          simp at this
        omega
      · have := List.mem_takeWhile_imp hc
        have hc' : c = ' ' := by simpa using this
        rw [hc']
        exact pyIsSpace_sp
    rw [hsplit]
    exact ih
  | case4 c1 c2 rest hm ih =>
    rw [collapseSp_cons_other rest hm]
    by_cases hsp : pyIsSpace c1 = true
    · rw [List.takeWhile_cons_of_pos hsp, List.takeWhile_cons_of_pos hsp]
      by_cases hcn : c1 = '\n'
      · subst hcn
        rw [countNl_cons_nl, countNl_cons_nl]
        omega
      · rw [countNl_cons_other _ hcn, countNl_cons_other _ hcn]
        exact ih
    · rw [List.takeWhile_cons_of_neg (by simpa using hsp),
        List.takeWhile_cons_of_neg (by simpa using hsp)]

theorem noTriNl_dropWhile (q : Char → Bool) {l : List Char}
    (h : noTriNl l = true) : noTriNl (l.dropWhile q) = true := by
  induction l with
  | nil => rfl
  | cons c t ih =>
    by_cases hc : q c = true
    · rw [List.dropWhile_cons_of_pos hc]
      exact ih (noTriNl_tail h)
    · rw [List.dropWhile_cons_of_neg (by simpa using hc)]
      exact h

/-- The second substitution cannot create a match of the newline
pattern. -/
theorem noTriNl_collapseSp {l : List Char} (h : noTriNl l = true) :
    noTriNl (collapseSp l) = true := by
  induction l using collapseSp.induct with
  | case1 => rw [collapseSp_nil]; rfl
  | case2 c => rw [collapseSp_one]; exact h
  | case3 c1 c2 rest hm ih =>
    obtain ⟨h1, h2⟩ := hm
    subst h1
    subst h2
    rw [collapseSp_cons_match]
    refine noTriNl_cons_iff.mpr ⟨fun hx => by simp at hx, ?_⟩
    exact ih (noTriNl_dropWhile _ (noTriNl_tail (noTriNl_tail h)))
  | case4 c1 c2 rest hm ih =>
    rw [collapseSp_cons_other rest hm]
    obtain ⟨hcond, htail⟩ := noTriNl_cons_iff.mp h
    refine noTriNl_cons_iff.mpr ⟨?_, ih htail⟩
    rintro ⟨hcn, hcount⟩
    exact hcond ⟨hcn, le_trans hcount (countNl_takeWhile_collapseSp (c2 :: rest))⟩

theorem noDblSp_appendRight {a b : List Char} (h : noDblSp (a ++ b) = true) :
    noDblSp b = true := by
  induction a with
  | nil => exact h
  | cons c t ih => exact ih (noDblSp_tail h)

theorem noDblSp_appendLeft {a b : List Char} (h : noDblSp (a ++ b) = true) :
    noDblSp a = true := by
  induction a with
  | nil => rfl
  | cons c t ih =>
    cases t with
    | nil => rfl
    | cons c2 t' =>
      have h' : noDblSp (c :: c2 :: (t' ++ b)) = true := by simpa using h
      obtain ⟨hcond, htail⟩ := noDblSp_cons_cons_iff.mp h'
      exact noDblSp_cons_cons_iff.mpr ⟨hcond, ih (by simpa using htail)⟩

theorem noDblSp_of_infix {m l : List Char} (h : m <:+: l)
    (hl : noDblSp l = true) : noDblSp m = true := by
  obtain ⟨s, t, rfl⟩ := h
  exact noDblSp_appendLeft (noDblSp_appendRight (by simpa using hl))

theorem noDblSp_pyStrip {l : List Char} (h : noDblSp l = true) :
    noDblSp (pyStrip l) = true := noDblSp_of_infix (pyStrip_isInfix l) h

/-- The stripped text is a prefix of the text shorn of its leading
whitespace. -/
theorem pyStrip_isPrefix_dropWhile (l : List Char) :
    pyStrip l <+: l.dropWhile pyIsSpace := by
  rw [← List.reverse_suffix]
  unfold pyStrip
  rw [List.reverse_reverse]
  exact List.dropWhile_suffix _

theorem headFails_pyStrip (l : List Char) : headFails pyIsSpace (pyStrip l) := by
  obtain ⟨t, ht⟩ := pyStrip_isPrefix_dropWhile l
  cases hp : pyStrip l with
  | nil => trivial
  | cons c u =>
    have hm : headFails pyIsSpace (l.dropWhile pyIsSpace) := headFails_dropWhile _ _
    rw [← ht, hp, List.cons_append] at hm
    exact headFails_cons hm

theorem headFails_pyStrip_reverse (l : List Char) :
    headFails pyIsSpace (pyStrip l).reverse := by
  unfold pyStrip
  rw [List.reverse_reverse]
  exact headFails_dropWhile _ _

/-- Stripping is idempotent. -/
theorem pyStrip_idem (l : List Char) : pyStrip (pyStrip l) = pyStrip l := by
  show (((pyStrip l).dropWhile pyIsSpace).reverse.dropWhile pyIsSpace).reverse = pyStrip l
  rw [dropWhile_eq_self_of_headFails (headFails_pyStrip l),
    dropWhile_eq_self_of_headFails (headFails_pyStrip_reverse l),
    List.reverse_reverse]

/-- The first substitution only ever writes newlines or characters of the
input. -/
theorem mem_collapseNl {c : Char} (l : List Char) :
    c ∈ collapseNl l → c ∈ l ∨ c = '\n' := by
  induction l using collapseNl.induct with
  | case1 =>
    rw [collapseNl_nil]
    intro h
    cases h
  | case2 rest hc ih =>
    rw [collapseNl_cons_high rest hc]
    intro h
    simp only [List.mem_cons] at h
    rcases h with h | h | h
    · exact Or.inr h
    · exact Or.inr h
    · rcases ih h with h2 | h2
      · rcases List.mem_append.mp h2 with h3 | h3
        · have h4 := (afterLastNl_all c h3).1
          have h5 := (List.takeWhile_sublist pyIsSpace (l := rest)).subset h4
          exact Or.inl (by simp [h5])
        · have h5 := (List.dropWhile_sublist pyIsSpace (l := rest)).subset h3
          exact Or.inl (by simp [h5])
      · exact Or.inr h2
  | case3 rest hc ih =>
    rw [collapseNl_cons_low rest hc]
    intro h
    simp only [List.mem_cons] at h
    rcases h with h | h
    · exact Or.inr h
    · rcases ih h with h2 | h2
      · exact Or.inl (by simp [h2])
      · exact Or.inr h2
  | case4 c' rest hne ih =>
    rw [collapseNl_cons_other rest hne]
    intro h
    simp only [List.mem_cons] at h
    rcases h with h | h
    · exact Or.inl (by simp [h])
    · rcases ih h with h2 | h2
      · exact Or.inl (by simp [h2])
      · exact Or.inr h2

/-- The second substitution only ever writes spaces or characters of the
input. -/
theorem mem_collapseSp {c : Char} (l : List Char) :
    c ∈ collapseSp l → c ∈ l ∨ c = ' ' := by
  induction l using collapseSp.induct with
  | case1 =>
    rw [collapseSp_nil]
    intro h
    cases h
  | case2 c' =>
    rw [collapseSp_one]
    exact Or.inl
  | case3 c1 c2 rest hm ih =>
    obtain ⟨h1, h2⟩ := hm
    subst h1
    subst h2
    rw [collapseSp_cons_match]
    intro h
    simp only [List.mem_cons] at h
    rcases h with h | h
    · exact Or.inr h
    · rcases ih h with h2 | h2
      · have h3 := (List.dropWhile_sublist (fun c => c == ' ') (l := rest)).subset h2
        exact Or.inl (by simp [h3])
      · exact Or.inr h2
  | case4 c1 c2 rest hm ih =>
    rw [collapseSp_cons_other rest hm]
    intro h
    simp only [List.mem_cons] at h
    rcases h with h | h
    · exact Or.inl (by simp [h])
    · rcases ih h with h2 | h2
      · simp only [List.mem_cons] at h2
        rcases h2 with h3 | h3
        · exact Or.inl (by simp [h3])
        · exact Or.inl (by simp [h3])
      · exact Or.inr h2

theorem removeCtrl_eq_self {l : List Char}
    (h : ∀ c ∈ l, isRemovedCtrl c = false) : removeCtrl l = l := by
  unfold removeCtrl
  rw [List.filter_eq_self]
  intro a ha
  simp [h a ha]

/-- C1 counterexample: the cleaner is not idempotent.  On `"a \x00 b"` the
control character is removed after the space-collapsing step, leaving the
two spaces around it adjacent: one pass yields `"a  b"`, a second pass
collapses the double space to `"a b"`. -/
theorem clean_text_not_idempotent :
    clean_text (clean_text "a \x00 b".toList) ≠ clean_text "a \x00 b".toList := by
  have h1 : clean_text "a \x00 b".toList = "a  b".toList := by
    simp [clean_text, collapseNl, collapseSp, removeCtrl, pyStrip, countNl,
      pyIsSpace, afterLastNl, isRemovedCtrl]
  have h2 : clean_text "a  b".toList = "a b".toList := by
    simp [clean_text, collapseNl, collapseSp, removeCtrl, pyStrip, countNl,
      pyIsSpace, afterLastNl, isRemovedCtrl]
  rw [h1, h2]
  decide

/-- C1 (amended): on every text containing none of the removed control
characters, the cleaner is idempotent: `clean_text (clean_text l) =
clean_text l`.  (With control characters present idempotence fails, see
`clean_text_not_idempotent`: removing a control character after the
whitespace passes can create new space runs or newline runs.) -/
theorem cleaner_idempotent_without_ctrl (l : List Char)
    (h : ∀ c ∈ l, isRemovedCtrl c = false) :
    clean_text (clean_text l) = clean_text l := by
  by_cases h0 : l = []
  · subst h0
    rfl
  have hm : ∀ c ∈ collapseSp (collapseNl l), isRemovedCtrl c = false := by
    intro c hc
    rcases mem_collapseSp _ hc with hc2 | rfl
    · rcases mem_collapseNl _ hc2 with hc3 | rfl
      · exact h c hc3
      · decide
    · decide
  have hcl : clean_text l = pyStrip (collapseSp (collapseNl l)) := by
    unfold clean_text
    rw [if_neg h0, removeCtrl_eq_self hm]
  have hyTri : noTriNl (clean_text l) = true := by
    rw [hcl]
    exact noTriNl_pyStrip (noTriNl_collapseSp (noTriNl_collapseNl l))
  have hyDbl : noDblSp (clean_text l) = true := by
    rw [hcl]
    exact noDblSp_pyStrip (noDblSp_collapseSp (collapseNl l))
  have hyCtrl : ∀ c ∈ clean_text l, isRemovedCtrl c = false := by
    intro c hc
    rw [hcl] at hc
    exact hm c ((pyStrip_isInfix _).sublist.subset hc)
  by_cases hy0 : clean_text l = []
  · rw [hy0]
    rfl
  · show (if clean_text l = [] then []
      else pyStrip (removeCtrl (collapseSp (collapseNl (clean_text l))))) = clean_text l
    rw [if_neg hy0, collapseNl_eq_self hyTri, collapseSp_eq_self hyDbl,
      removeCtrl_eq_self hyCtrl, hcl, pyStrip_idem]

/-- C1 witness: a control-free text with double spaces and a newline run,
on which the cleaner is idempotent. -/
theorem cleaner_idempotent_without_ctrl_witness :
    clean_text (clean_text "a  b\n\n\n\nc".toList) = clean_text "a  b\n\n\n\nc".toList :=
  cleaner_idempotent_without_ctrl "a  b\n\n\n\nc".toList (by decide)

end Varsha
